import Mathlib

/-!
A verification development for TiKV's MySQL-compatible JSON path-extraction
engine (`components/tidb_query_datatype/src/codec/mysql/json/json_extract.rs`).

The binary-encoded JSON document is modelled as an inductive tree `Json`.
A `JsonRef` — in the source a borrowed view into the document's backing
bytes — is modelled as the pair of the referenced node and its storage
location, the path of child indices from the document root.  Two `JsonRef`s
into the same document denote the identical storage location (`ref_eq`,
address identity of the backing bytes in the source) exactly when their
location paths are equal.  Fallible accessors return `Except`, mirroring
the source's `Result`.
-/

set_option linter.unusedVariables false

/-- A JSON document node.  Arrays and objects are ordered containers;
objects store their key/value pairs in their (sorted-key) stored order. -/
inductive Json where
  | null
  | bool (b : Bool)
  | num (n : Int)
  | str (s : String)
  | arr (elems : List Json)
  | obj (fields : List (String × Json))

/-- The type tag of a binary JSON value (`JsonType` in the source). -/
inductive JsonType where
  | object
  | array
  | literal
  | i64
  | u64
  | double
  | string
deriving Repr, DecidableEq

/-- The type tag of a node. -/
def Json.get_type : Json → JsonType
  | .null => .literal
  | .bool _ => .literal
  | .num _ => .i64
  | .str _ => .string
  | .arr _ => .array
  | .obj _ => .object

/-- A reference into a JSON document: the referenced node together with its
storage location (the path of child indices from the root).  In the source a
`JsonRef` is a borrowed byte slice; distinct tree locations occupy distinct
byte ranges, so location-path equality models address identity. -/
structure JsonRef where
  node : Json
  loc : List Nat

/-- Type tag accessor (`JsonRef::get_type`). -/
def JsonRef.get_type (r : JsonRef) : JsonType := r.node.get_type

/-- Element count accessor (`JsonRef::get_elem_count`); meaningful for
arrays and objects. -/
def JsonRef.get_elem_count (r : JsonRef) : Nat :=
  match r.node with
  | .arr es => es.length
  | .obj fs => fs.length
  | _ => 0

/-- Array element accessor (`JsonRef::array_get_elem`): returns the `k`-th
element of an array, or a decoding error. -/
def JsonRef.array_get_elem (r : JsonRef) (k : Nat) : Except String JsonRef :=
  match r.node with
  | .arr es =>
    match es[k]? with
    | some e => .ok ⟨e, r.loc ++ [k]⟩
    | none => .error "Index out of range"
  | _ => .error "Invalid JSON value type"

/-- Object value accessor (`JsonRef::object_get_val`): returns the value of
the `k`-th key/value pair of an object, or a decoding error. -/
def JsonRef.object_get_val (r : JsonRef) (k : Nat) : Except String JsonRef :=
  match r.node with
  | .obj fs =>
    match fs[k]? with
    | some f => .ok ⟨f.2, r.loc ++ [k]⟩
    | none => .error "Index out of range"
  | _ => .error "Invalid JSON value type"

/-- Key lookup accessor (`JsonRef::object_search_key`): the slot index of
the key/value pair whose key equals `key` exactly, if present. -/
def JsonRef.object_search_key (r : JsonRef) (key : String) : Option Nat :=
  match r.node with
  | .obj fs => fs.findIdx? (fun f => f.1 == key)
  | _ => none

/-- Address identity of two references (`JsonRef::ref_eq`): in the source,
pointer identity of the backing byte slices; here, equality of the
location paths. -/
def JsonRef.ref_eq (r o : JsonRef) : Bool := r.loc == o.loc

/-- Conversion of a reference to an owned value (`JsonRef::to_owned`). -/
def JsonRef.to_owned (r : JsonRef) : Json := r.node

/-- Modelled from the spec (`path_expr.rs` is not part of the excerpt):
the sentinel array index meaning "every index" (`[*]`). -/
def PATH_EXPR_ARRAY_INDEX_ASTERISK : Int := -1

/-- Modelled from the spec (`path_expr.rs` is not part of the excerpt):
the sentinel key meaning "every key" (`.*`). -/
def PATH_EXPR_ASTERISK : String := "*"

/-- Modelled from the spec (`path_expr.rs` is not part of the excerpt):
one navigation step of a path expression — a literal/wildcard array index,
a literal/wildcard object key, or recursive descent (`**`). -/
inductive PathLeg where
  | Index (i : Int)
  | Key (k : String)
  | DoubleAsterisk
deriving Repr, DecidableEq

/-- The `i as usize` cast of the source, made explicit: reduction modulo
`2 ^ 64` (a negative `i` wraps around). -/
def usizeCast (i : Int) : Nat := (i % 2 ^ 64).toNat

/-- `append_if_ref_unique`: append to `elem_list` every element of `other`
whose storage location is absent from `elem_list`.  The uniqueness check
consults only the set built from `elem_list` before any push, exactly as the
source's `unique_verifier` (which is never updated during the second loop). -/
def append_if_ref_unique (elem_list other : List JsonRef) : List JsonRef :=
  elem_list ++ other.filter (fun e => !(elem_list.any (fun x => x.ref_eq e)))

/-- An array element is strictly smaller than the node it was read from. -/
theorem sizeOf_lt_of_array_get_elem {j child : JsonRef} {k : Nat}
    (h : j.array_get_elem k = Except.ok child) :
    sizeOf child.node < sizeOf j.node := by
  rcases j with ⟨node, loc⟩
  cases node with
  | arr es =>
    simp only [JsonRef.array_get_elem] at h
    cases hk : es[k]? with
    | none => rw [hk] at h; exact Except.noConfusion h
    | some e =>
      rw [hk] at h
      cases h
      have hmem : e ∈ es := List.getElem?_mem hk
      have := List.sizeOf_lt_of_mem hmem
      simp only [Json.arr.sizeOf_spec]
      omega
  | null => exact Except.noConfusion h
  | bool b => exact Except.noConfusion h
  | num n => exact Except.noConfusion h
  | str s => exact Except.noConfusion h
  | obj fs => exact Except.noConfusion h

/-- An object value is strictly smaller than the node it was read from. -/
theorem sizeOf_lt_of_object_get_val {j child : JsonRef} {k : Nat}
    (h : j.object_get_val k = Except.ok child) :
    sizeOf child.node < sizeOf j.node := by
  rcases j with ⟨node, loc⟩
  cases node with
  | obj fs =>
    simp only [JsonRef.object_get_val] at h
    cases hk : fs[k]? with
    | none => rw [hk] at h; exact Except.noConfusion h
    | some f =>
      rw [hk] at h
      cases h
      have hmem : f ∈ fs := List.getElem?_mem hk
      have h1 := List.sizeOf_lt_of_mem hmem
      rcases f with ⟨a, b⟩
      simp only [Json.obj.sizeOf_spec]
      simp only [Prod.mk.sizeOf_spec] at h1
      omega
  | null => exact Except.noConfusion h
  | bool b => exact Except.noConfusion h
  | num n => exact Except.noConfusion h
  | str s => exact Except.noConfusion h
  | arr es => exact Except.noConfusion h

mutual

/-- `extract_json`: matches a leg list against a document node, returning
the ordered, identity-deduplicated list of matching references. -/
def extract_json (j : JsonRef) (path_legs : List PathLeg) :
    Except String (List JsonRef) :=
  match path_legs with
  | [] => .ok [j]
  | current_leg :: sub_path_legs =>
    match current_leg with
    | .Index i =>
      match j.get_type with
      | .array =>
        let elem_count := j.get_elem_count
        if i = PATH_EXPR_ARRAY_INDEX_ASTERISK then
          extract_json_arr j (List.range elem_count) sub_path_legs []
        else if usizeCast i < elem_count then
          match h : j.array_get_elem (usizeCast i) with
          | .error e => .error e
          | .ok child =>
            match extract_json child sub_path_legs with
            | .error e => .error e
            | .ok sub => .ok (append_if_ref_unique [] sub)
        else .ok []
      | _ =>
        if usizeCast i = 0 then
          match extract_json j sub_path_legs with
          | .error e => .error e
          | .ok sub => .ok (append_if_ref_unique [] sub)
        else .ok []
    | .Key key =>
      if j.get_type = .object then
        if key = PATH_EXPR_ASTERISK then
          extract_json_obj j (List.range j.get_elem_count) sub_path_legs []
        else
          match j.object_search_key key with
          | some idx =>
            match h : j.object_get_val idx with
            | .error e => .error e
            | .ok val =>
              match extract_json val sub_path_legs with
              | .error e => .error e
              | .ok sub => .ok (append_if_ref_unique [] sub)
          | none => .ok []
      else .ok []
    | .DoubleAsterisk =>
      match extract_json j sub_path_legs with
      | .error e => .error e
      | .ok sub =>
        let ret := append_if_ref_unique [] sub
        -- the source recurses with the full original `path_legs`, which in
        -- this branch is `current_leg :: sub_path_legs`
        match j.get_type with
        | .array =>
          extract_json_arr j (List.range j.get_elem_count)
            (current_leg :: sub_path_legs) ret
        | .object =>
          extract_json_obj j (List.range j.get_elem_count)
            (current_leg :: sub_path_legs) ret
        | _ => .ok ret
termination_by (sizeOf j.node, path_legs.length, 1, 0)
decreasing_by
  · exact Prod.Lex.right _ (Prod.Lex.left _ _
      (by simp only [List.length_cons]; omega))
  · exact Prod.Lex.left _ _ (sizeOf_lt_of_array_get_elem h)
  · exact Prod.Lex.right _ (Prod.Lex.left _ _
      (by simp only [List.length_cons]; omega))
  · exact Prod.Lex.right _ (Prod.Lex.left _ _
      (by simp only [List.length_cons]; omega))
  · exact Prod.Lex.left _ _ (sizeOf_lt_of_object_get_val h)
  · exact Prod.Lex.right _ (Prod.Lex.right _ (Prod.Lex.left _ _ (by omega)))
  · exact Prod.Lex.right _ (Prod.Lex.right _ (Prod.Lex.left _ _ (by omega)))

/-- The source's `for k in 0..elem_count` loop over array elements:
for each index in `ks`, extract from the `k`-th element and merge with
identity dedup into the accumulator `ret`. -/
def extract_json_arr (j : JsonRef) (ks : List Nat) (legs : List PathLeg)
    (ret : List JsonRef) : Except String (List JsonRef) :=
  match ks with
  | [] => .ok ret
  | k :: ks2 =>
    match h : j.array_get_elem k with
    | .error e => .error e
    | .ok child =>
      match extract_json child legs with
      | .error e => .error e
      | .ok sub => extract_json_arr j ks2 legs (append_if_ref_unique ret sub)
termination_by (sizeOf j.node, legs.length, 0, ks.length)
decreasing_by
  · exact Prod.Lex.left _ _ (sizeOf_lt_of_array_get_elem h)
  · exact Prod.Lex.right _ (Prod.Lex.right _ (Prod.Lex.right _
      (by simp only [List.length_cons]; omega)))

/-- The source's `for i in 0..elem_count` loop over object values:
for each slot in `ks`, extract from the `k`-th value and merge with
identity dedup into the accumulator `ret`. -/
def extract_json_obj (j : JsonRef) (ks : List Nat) (legs : List PathLeg)
    (ret : List JsonRef) : Except String (List JsonRef) :=
  match ks with
  | [] => .ok ret
  | k :: ks2 =>
    match h : j.object_get_val k with
    | .error e => .error e
    | .ok val =>
      match extract_json val legs with
      | .error e => .error e
      | .ok sub => extract_json_obj j ks2 legs (append_if_ref_unique ret sub)
termination_by (sizeOf j.node, legs.length, 0, ks.length)
decreasing_by
  · exact Prod.Lex.left _ _ (sizeOf_lt_of_object_get_val h)
  · exact Prod.Lex.right _ (Prod.Lex.right _ (Prod.Lex.right _
      (by simp only [List.length_cons]; omega)))

end

/-- Modelled from the spec (`path_expr.rs` is not part of the excerpt):
the precomputed wildcard-presence flags of a parsed path expression — one
bit for single-level wildcards (`*`, `[*]`) and one for recursive descent
(`**`). -/
structure PathExpressionFlag where
  containsAsterisk : Bool
  containsDoubleAsterisk : Bool
deriving Repr, DecidableEq

/-- A parsed path expression: an ordered leg sequence plus its precomputed
wildcard flags. -/
structure PathExpression where
  legs : List PathLeg
  flags : PathExpressionFlag
deriving Repr, DecidableEq

/-- Modelled from the spec (`path_expr.rs` is not part of the excerpt):
`PathExpression::contains_any_asterisk` — whether either precomputed
wildcard flag is set. -/
def PathExpression.contains_any_asterisk (pe : PathExpression) : Bool :=
  pe.flags.containsAsterisk || pe.flags.containsDoubleAsterisk

/-- The accumulating loop of `extract`: or-accumulates the wildcard flags
into `could` and appends each expression's match list (plain append, no
cross-expression dedup) onto `elem_list`. -/
def extract_fold (j : JsonRef) (exprs : List PathExpression) (could : Bool)
    (elem_list : List JsonRef) : Except String (Bool × List JsonRef) :=
  match exprs with
  | [] => .ok (could, elem_list)
  | path_expr :: rest =>
    match extract_json j path_expr.legs with
    | .error e => .error e
    | .ok ms =>
      extract_fold j rest (could || path_expr.contains_any_asterisk)
        (elem_list ++ ms)

/-- `extract`: matches several path expressions against the document and
returns the matched JSON, possibly autowrapped as an array; `none` when no
expression matched. -/
def extract (j : JsonRef) (path_expr_list : List PathExpression) :
    Except String (Option Json) :=
  match extract_fold j path_expr_list (decide (path_expr_list.length > 1)) [] with
  | .error e => .error e
  | .ok (could_return_multiple_matches, elem_list) =>
    match elem_list with
    | [] => .ok none
    | e :: rest =>
      if could_return_multiple_matches then
        .ok (some (.arr ((e :: rest).map (fun r => r.to_owned))))
      else
        .ok (some e.to_owned)

/-! ## Derived views used to state properties

`childAt` is the total version of the two child accessors, defined for the
in-range indices at which the source ever calls them; `extractL` is the
match list of `extract_json` (which, on the tree model, never fails). -/

/-- The `k`-th child of a container node (array element / object value),
as a total function; meaningful for `k < get_elem_count`. -/
def JsonRef.childAt (j : JsonRef) (k : Nat) : JsonRef :=
  match j.node with
  | .arr es => ⟨es.getD k .null, j.loc ++ [k]⟩
  | .obj fs => ⟨(fs.getD k ("", .null)).2, j.loc ++ [k]⟩
  | _ => j

/-- On an array, in-range element access succeeds and returns `childAt`. -/
theorem array_get_elem_eq_childAt {j : JsonRef} {k : Nat}
    (ht : j.get_type = .array) (hk : k < j.get_elem_count) :
    j.array_get_elem k = Except.ok (j.childAt k) := by
  rcases j with ⟨node, loc⟩
  cases node <;> simp [JsonRef.get_type, Json.get_type] at ht
  case arr es =>
    simp [JsonRef.get_elem_count] at hk
    simp [JsonRef.array_get_elem, JsonRef.childAt, List.getD,
      List.getElem?_eq_getElem hk]

/-- On an object, in-range value access succeeds and returns `childAt`. -/
theorem object_get_val_eq_childAt {j : JsonRef} {k : Nat}
    (ht : j.get_type = .object) (hk : k < j.get_elem_count) :
    j.object_get_val k = Except.ok (j.childAt k) := by
  rcases j with ⟨node, loc⟩
  cases node <;> simp [JsonRef.get_type, Json.get_type] at ht
  case obj fs =>
    simp [JsonRef.get_elem_count] at hk
    simp [JsonRef.object_get_val, JsonRef.childAt, List.getD,
      List.getElem?_eq_getElem hk]

/-! ## Branch equations for `extract_json` -/

theorem extract_json_nil (j : JsonRef) : extract_json j [] = .ok [j] := by
  rw [extract_json.eq_def]

theorem extract_json_arr_nil (j : JsonRef) (legs : List PathLeg)
    (ret : List JsonRef) : extract_json_arr j [] legs ret = .ok ret := by
  rw [extract_json_arr.eq_def]

theorem extract_json_obj_nil (j : JsonRef) (legs : List PathLeg)
    (ret : List JsonRef) : extract_json_obj j [] legs ret = .ok ret := by
  rw [extract_json_obj.eq_def]

theorem extract_json_arr_cons {j child : JsonRef} {k : Nat}
    {legs : List PathLeg} {sub : List JsonRef} (ks : List Nat)
    (ret : List JsonRef)
    (h1 : j.array_get_elem k = .ok child)
    (h2 : extract_json child legs = .ok sub) :
    extract_json_arr j (k :: ks) legs ret
      = extract_json_arr j ks legs (append_if_ref_unique ret sub) := by
  rw [extract_json_arr.eq_def]
  dsimp only
  split
  · rename_i e heq; rw [h1] at heq; exact Except.noConfusion heq
  · rename_i child2 heq
    rw [h1] at heq
    cases heq
    rw [h2]

theorem extract_json_obj_cons {j val : JsonRef} {k : Nat}
    {legs : List PathLeg} {sub : List JsonRef} (ks : List Nat)
    (ret : List JsonRef)
    (h1 : j.object_get_val k = .ok val)
    (h2 : extract_json val legs = .ok sub) :
    extract_json_obj j (k :: ks) legs ret
      = extract_json_obj j ks legs (append_if_ref_unique ret sub) := by
  rw [extract_json_obj.eq_def]
  dsimp only
  split
  · rename_i e heq; rw [h1] at heq; exact Except.noConfusion heq
  · rename_i val2 heq
    rw [h1] at heq
    cases heq
    rw [h2]

theorem extract_json_index_arr_ast {j : JsonRef} {i : Int}
    (rest : List PathLeg) (ht : j.get_type = .array)
    (hi : i = PATH_EXPR_ARRAY_INDEX_ASTERISK) :
    extract_json j (.Index i :: rest)
      = extract_json_arr j (List.range j.get_elem_count) rest [] := by
  rw [extract_json.eq_def]
  simp only [ht, hi, if_pos rfl, eq_self_iff_true, if_true]

theorem extract_json_index_arr_hit {j child : JsonRef} {i : Int}
    {rest : List PathLeg} {sub : List JsonRef}
    (ht : j.get_type = .array) (hi : i ≠ PATH_EXPR_ARRAY_INDEX_ASTERISK)
    (hlt : usizeCast i < j.get_elem_count)
    (h1 : j.array_get_elem (usizeCast i) = .ok child)
    (h2 : extract_json child rest = .ok sub) :
    extract_json j (.Index i :: rest) = .ok (append_if_ref_unique [] sub) := by
  rw [extract_json.eq_def]
  simp only [ht, if_neg hi, if_pos hlt]
  split
  · rename_i e heq; rw [h1] at heq; exact Except.noConfusion heq
  · rename_i child2 heq
    rw [h1] at heq
    cases heq
    rw [h2]

theorem extract_json_index_arr_miss {j : JsonRef} {i : Int}
    (rest : List PathLeg) (ht : j.get_type = .array)
    (hi : i ≠ PATH_EXPR_ARRAY_INDEX_ASTERISK)
    (hge : ¬ usizeCast i < j.get_elem_count) :
    extract_json j (.Index i :: rest) = .ok [] := by
  rw [extract_json.eq_def]
  simp only [ht, if_neg hi, if_neg hge]

theorem extract_json_index_nonarr_zero {j : JsonRef} {i : Int}
    {rest : List PathLeg} {sub : List JsonRef}
    (ht : j.get_type ≠ .array) (hi : usizeCast i = 0)
    (h2 : extract_json j rest = .ok sub) :
    extract_json j (.Index i :: rest) = .ok (append_if_ref_unique [] sub) := by
  rw [extract_json.eq_def]
  cases hty : j.get_type <;> try exact absurd hty ht
  all_goals simp only [if_pos hi]
  all_goals rw [h2]

theorem extract_json_index_nonarr_nonzero {j : JsonRef} {i : Int}
    (rest : List PathLeg) (ht : j.get_type ≠ .array)
    (hi : usizeCast i ≠ 0) :
    extract_json j (.Index i :: rest) = .ok [] := by
  rw [extract_json.eq_def]
  cases hty : j.get_type <;> try exact absurd hty ht
  all_goals simp only [if_neg hi]

theorem extract_json_key_nonobj {j : JsonRef} {key : String}
    (rest : List PathLeg) (ht : j.get_type ≠ .object) :
    extract_json j (.Key key :: rest) = .ok [] := by
  rw [extract_json.eq_def]
  simp only [if_neg ht]

theorem extract_json_key_ast {j : JsonRef} {key : String}
    (rest : List PathLeg) (ht : j.get_type = .object)
    (hk : key = PATH_EXPR_ASTERISK) :
    extract_json j (.Key key :: rest)
      = extract_json_obj j (List.range j.get_elem_count) rest [] := by
  rw [extract_json.eq_def]
  simp only [ht, hk, if_pos rfl, eq_self_iff_true, if_true]

theorem extract_json_key_found {j val : JsonRef} {key : String} {idx : Nat}
    {rest : List PathLeg} {sub : List JsonRef}
    (ht : j.get_type = .object) (hk : key ≠ PATH_EXPR_ASTERISK)
    (hf : j.object_search_key key = some idx)
    (h1 : j.object_get_val idx = .ok val)
    (h2 : extract_json val rest = .ok sub) :
    extract_json j (.Key key :: rest) = .ok (append_if_ref_unique [] sub) := by
  rw [extract_json.eq_def]
  simp only [ht, eq_self_iff_true, if_true, if_neg hk, hf]
  split
  · rename_i e heq; rw [h1] at heq; exact Except.noConfusion heq
  · rename_i val2 heq
    rw [h1] at heq
    cases heq
    rw [h2]

theorem extract_json_key_absent {j : JsonRef} {key : String}
    (rest : List PathLeg) (ht : j.get_type = .object)
    (hk : key ≠ PATH_EXPR_ASTERISK)
    (hf : j.object_search_key key = none) :
    extract_json j (.Key key :: rest) = .ok [] := by
  rw [extract_json.eq_def]
  simp only [ht, eq_self_iff_true, if_true, if_neg hk, hf]

theorem extract_json_da_arr {j : JsonRef} {rest : List PathLeg}
    {sub : List JsonRef} (ht : j.get_type = .array)
    (h2 : extract_json j rest = .ok sub) :
    extract_json j (.DoubleAsterisk :: rest)
      = extract_json_arr j (List.range j.get_elem_count)
          (.DoubleAsterisk :: rest) (append_if_ref_unique [] sub) := by
  rw [extract_json.eq_def]
  dsimp only
  rw [h2]
  dsimp only
  simp only [ht]

theorem extract_json_da_obj {j : JsonRef} {rest : List PathLeg}
    {sub : List JsonRef} (ht : j.get_type = .object)
    (h2 : extract_json j rest = .ok sub) :
    extract_json j (.DoubleAsterisk :: rest)
      = extract_json_obj j (List.range j.get_elem_count)
          (.DoubleAsterisk :: rest) (append_if_ref_unique [] sub) := by
  rw [extract_json.eq_def]
  dsimp only
  rw [h2]
  dsimp only
  simp only [ht]

theorem extract_json_da_scalar {j : JsonRef} {rest : List PathLeg}
    {sub : List JsonRef} (ht : j.get_type ≠ .array)
    (ht2 : j.get_type ≠ .object)
    (h2 : extract_json j rest = .ok sub) :
    extract_json j (.DoubleAsterisk :: rest)
      = .ok (append_if_ref_unique [] sub) := by
  rw [extract_json.eq_def]
  dsimp only
  rw [h2]
  dsimp only
  cases hty : j.get_type <;> first
    | exact absurd hty ht
    | exact absurd hty ht2
    | simp only [hty]

/-! ## `extract_json` never fails on a well-formed document -/

/-- A successful key search returns an in-range slot index. -/
theorem object_search_key_lt {j : JsonRef} {key : String} {idx : Nat}
    (h : j.object_search_key key = some idx) : idx < j.get_elem_count := by
  rcases j with ⟨node, loc⟩
  cases node <;> simp only [JsonRef.object_search_key] at h
  case obj fs =>
    simp only [JsonRef.get_elem_count]
    exact (List.findIdx?_eq_some_iff_findIdx_eq.mp h).1
  all_goals exact Option.noConfusion h

/-- An in-range child is strictly smaller than its parent container. -/
theorem sizeOf_childAt_lt {j : JsonRef} {k : Nat}
    (ht : j.get_type = .array ∨ j.get_type = .object)
    (hk : k < j.get_elem_count) :
    sizeOf (j.childAt k).node < sizeOf j.node := by
  cases ht with
  | inl ht => exact sizeOf_lt_of_array_get_elem (array_get_elem_eq_childAt ht hk)
  | inr ht => exact sizeOf_lt_of_object_get_val (object_get_val_eq_childAt ht hk)

/-- The array loop succeeds when every index is in range and every child
extraction succeeds. -/
theorem extract_json_arr_ok {j : JsonRef} {legs : List PathLeg}
    (ks : List Nat) (ret : List JsonRef)
    (ht : j.get_type = .array)
    (hks : ∀ k ∈ ks, k < j.get_elem_count)
    (hrec : ∀ k ∈ ks, ∃ v, extract_json (j.childAt k) legs = Except.ok v) :
    ∃ v, extract_json_arr j ks legs ret = Except.ok v := by
  induction ks generalizing ret with
  | nil => exact ⟨ret, extract_json_arr_nil j legs ret⟩
  | cons k ks ih =>
    obtain ⟨sub, hsub⟩ := hrec k (by simp)
    rw [extract_json_arr_cons ks ret
      (array_get_elem_eq_childAt ht (hks k (by simp))) hsub]
    exact ih _ (fun k hk => hks k (by simp [hk]))
      (fun k hk => hrec k (by simp [hk]))

/-- The object loop succeeds when every slot is in range and every child
extraction succeeds. -/
theorem extract_json_obj_ok {j : JsonRef} {legs : List PathLeg}
    (ks : List Nat) (ret : List JsonRef)
    (ht : j.get_type = .object)
    (hks : ∀ k ∈ ks, k < j.get_elem_count)
    (hrec : ∀ k ∈ ks, ∃ v, extract_json (j.childAt k) legs = Except.ok v) :
    ∃ v, extract_json_obj j ks legs ret = Except.ok v := by
  induction ks generalizing ret with
  | nil => exact ⟨ret, extract_json_obj_nil j legs ret⟩
  | cons k ks ih =>
    obtain ⟨sub, hsub⟩ := hrec k (by simp)
    rw [extract_json_obj_cons ks ret
      (object_get_val_eq_childAt ht (hks k (by simp))) hsub]
    exact ih _ (fun k hk => hks k (by simp [hk]))
      (fun k hk => hrec k (by simp [hk]))

theorem extract_json_ok_of_size (n : Nat) :
    ∀ j : JsonRef, sizeOf j.node < n →
      ∀ legs : List PathLeg, ∃ v, extract_json j legs = Except.ok v := by
  induction n with
  | zero => intro j h; omega
  | succ n ihn =>
    intro j hj legs
    induction legs with
    | nil => exact ⟨[j], extract_json_nil j⟩
    | cons leg rest ihrest =>
      have hchild : ∀ k, k < j.get_elem_count →
          (j.get_type = .array ∨ j.get_type = .object) →
          ∀ legs2, ∃ v, extract_json (j.childAt k) legs2 = Except.ok v := by
        intro k hk hty legs2
        exact ihn (j.childAt k) (by
          have := sizeOf_childAt_lt hty hk; omega) legs2
      cases leg with
      | Index i =>
        by_cases hty : j.get_type = .array
        · by_cases hi : i = PATH_EXPR_ARRAY_INDEX_ASTERISK
          · rw [extract_json_index_arr_ast rest hty hi]
            exact extract_json_arr_ok _ _ hty (fun k hk => List.mem_range.mp hk)
              (fun k hk => hchild k (List.mem_range.mp hk) (Or.inl hty) rest)
          · by_cases hlt : usizeCast i < j.get_elem_count
            · obtain ⟨sub, hsub⟩ := hchild _ hlt (Or.inl hty) rest
              exact ⟨_, extract_json_index_arr_hit hty hi hlt
                (array_get_elem_eq_childAt hty hlt) hsub⟩
            · exact ⟨[], extract_json_index_arr_miss rest hty hi hlt⟩
        · by_cases hz : usizeCast i = 0
          · obtain ⟨sub, hsub⟩ := ihrest
            exact ⟨_, extract_json_index_nonarr_zero hty hz hsub⟩
          · exact ⟨[], extract_json_index_nonarr_nonzero rest hty hz⟩
      | Key key =>
        by_cases hty : j.get_type = .object
        · by_cases hk : key = PATH_EXPR_ASTERISK
          · rw [extract_json_key_ast rest hty hk]
            exact extract_json_obj_ok _ _ hty (fun k hk => List.mem_range.mp hk)
              (fun k hk2 => hchild k (List.mem_range.mp hk2) (Or.inr hty) rest)
          · cases hf : j.object_search_key key with
            | some idx =>
              obtain ⟨sub, hsub⟩ :=
                hchild idx (object_search_key_lt hf) (Or.inr hty) rest
              exact ⟨_, extract_json_key_found hty hk hf
                (object_get_val_eq_childAt hty (object_search_key_lt hf)) hsub⟩
            | none => exact ⟨[], extract_json_key_absent rest hty hk hf⟩
        · exact ⟨[], extract_json_key_nonobj rest hty⟩
      | DoubleAsterisk =>
        obtain ⟨sub, hsub⟩ := ihrest
        by_cases hty : j.get_type = .array
        · rw [extract_json_da_arr hty hsub]
          exact extract_json_arr_ok _ _ hty (fun k hk => List.mem_range.mp hk)
            (fun k hk => hchild k (List.mem_range.mp hk) (Or.inl hty) _)
        · by_cases hty2 : j.get_type = .object
          · rw [extract_json_da_obj hty2 hsub]
            exact extract_json_obj_ok _ _ hty2 (fun k hk => List.mem_range.mp hk)
              (fun k hk => hchild k (List.mem_range.mp hk) (Or.inr hty2) _)
          · exact ⟨_, extract_json_da_scalar hty hty2 hsub⟩

/-- `extract_json` always succeeds on the (well-formed) tree model. -/
theorem extract_json_ok (j : JsonRef) (legs : List PathLeg) :
    ∃ v, extract_json j legs = Except.ok v :=
  extract_json_ok_of_size (sizeOf j.node + 1) j (by omega) legs

/-- The match list produced by `extract_json` (which never fails on the
tree model): the pure view used to state ordering/uniqueness properties. -/
def extractL (j : JsonRef) (legs : List PathLeg) : List JsonRef :=
  match extract_json j legs with
  | .ok v => v
  | .error _ => []

theorem extractL_eq_of {j : JsonRef} {legs : List PathLeg} {v : List JsonRef}
    (h : extract_json j legs = Except.ok v) : extractL j legs = v := by
  simp [extractL, h]

/-- `extract_json` always returns `.ok` of its match list. -/
theorem extract_json_eq_ok (j : JsonRef) (legs : List PathLeg) :
    extract_json j legs = Except.ok (extractL j legs) := by
  obtain ⟨v, hv⟩ := extract_json_ok j legs
  rw [hv, extractL_eq_of hv]

/-- Closed form of the array loop: a fold merging each element's matches
with identity dedup, left to right. -/
theorem extract_json_arr_foldl {j : JsonRef} {legs : List PathLeg}
    (ks : List Nat) (ret : List JsonRef)
    (ht : j.get_type = .array)
    (hks : ∀ k ∈ ks, k < j.get_elem_count) :
    extract_json_arr j ks legs ret = Except.ok (ks.foldl
      (fun acc k => append_if_ref_unique acc (extractL (j.childAt k) legs))
      ret) := by
  induction ks generalizing ret with
  | nil => simp [extract_json_arr_nil]
  | cons k ks ih =>
    rw [extract_json_arr_cons ks ret
      (array_get_elem_eq_childAt ht (hks k (by simp)))
      (extract_json_eq_ok (j.childAt k) legs)]
    rw [ih _ (fun k hk => hks k (by simp [hk]))]
    simp

/-- Closed form of the object loop: a fold merging each value's matches
with identity dedup, left to right. -/
theorem extract_json_obj_foldl {j : JsonRef} {legs : List PathLeg}
    (ks : List Nat) (ret : List JsonRef)
    (ht : j.get_type = .object)
    (hks : ∀ k ∈ ks, k < j.get_elem_count) :
    extract_json_obj j ks legs ret = Except.ok (ks.foldl
      (fun acc k => append_if_ref_unique acc (extractL (j.childAt k) legs))
      ret) := by
  induction ks generalizing ret with
  | nil => simp [extract_json_obj_nil]
  | cons k ks ih =>
    rw [extract_json_obj_cons ks ret
      (object_get_val_eq_childAt ht (hks k (by simp)))
      (extract_json_eq_ok (j.childAt k) legs)]
    rw [ih _ (fun k hk => hks k (by simp [hk]))]
    simp

/-! ## Pure branch equations for the match list `extractL` -/

theorem extractL_nil (j : JsonRef) : extractL j [] = [j] :=
  extractL_eq_of (extract_json_nil j)

theorem extractL_index_arr_ast {j : JsonRef} {i : Int} (rest : List PathLeg)
    (ht : j.get_type = .array) (hi : i = PATH_EXPR_ARRAY_INDEX_ASTERISK) :
    extractL j (.Index i :: rest) = (List.range j.get_elem_count).foldl
      (fun acc k => append_if_ref_unique acc (extractL (j.childAt k) rest))
      [] := by
  apply extractL_eq_of
  rw [extract_json_index_arr_ast rest ht hi]
  exact extract_json_arr_foldl _ _ ht (fun k hk => List.mem_range.mp hk)

theorem extractL_index_arr_hit {j : JsonRef} {i : Int} (rest : List PathLeg)
    (ht : j.get_type = .array) (hi : i ≠ PATH_EXPR_ARRAY_INDEX_ASTERISK)
    (hlt : usizeCast i < j.get_elem_count) :
    extractL j (.Index i :: rest)
      = append_if_ref_unique [] (extractL (j.childAt (usizeCast i)) rest) :=
  extractL_eq_of (extract_json_index_arr_hit ht hi hlt
    (array_get_elem_eq_childAt ht hlt) (extract_json_eq_ok _ rest))

theorem extractL_index_arr_miss {j : JsonRef} {i : Int} (rest : List PathLeg)
    (ht : j.get_type = .array) (hi : i ≠ PATH_EXPR_ARRAY_INDEX_ASTERISK)
    (hge : ¬ usizeCast i < j.get_elem_count) :
    extractL j (.Index i :: rest) = [] :=
  extractL_eq_of (extract_json_index_arr_miss rest ht hi hge)

theorem extractL_index_nonarr_zero {j : JsonRef} {i : Int}
    (rest : List PathLeg) (ht : j.get_type ≠ .array)
    (hi : usizeCast i = 0) :
    extractL j (.Index i :: rest)
      = append_if_ref_unique [] (extractL j rest) :=
  extractL_eq_of (extract_json_index_nonarr_zero ht hi
    (extract_json_eq_ok j rest))

theorem extractL_index_nonarr_nonzero {j : JsonRef} {i : Int}
    (rest : List PathLeg) (ht : j.get_type ≠ .array)
    (hi : usizeCast i ≠ 0) :
    extractL j (.Index i :: rest) = [] :=
  extractL_eq_of (extract_json_index_nonarr_nonzero rest ht hi)

theorem extractL_key_nonobj {j : JsonRef} {key : String}
    (rest : List PathLeg) (ht : j.get_type ≠ .object) :
    extractL j (.Key key :: rest) = [] :=
  extractL_eq_of (extract_json_key_nonobj rest ht)

theorem extractL_key_ast {j : JsonRef} {key : String} (rest : List PathLeg)
    (ht : j.get_type = .object) (hk : key = PATH_EXPR_ASTERISK) :
    extractL j (.Key key :: rest) = (List.range j.get_elem_count).foldl
      (fun acc k => append_if_ref_unique acc (extractL (j.childAt k) rest))
      [] := by
  apply extractL_eq_of
  rw [extract_json_key_ast rest ht hk]
  exact extract_json_obj_foldl _ _ ht (fun k hk => List.mem_range.mp hk)

theorem extractL_key_found {j : JsonRef} {key : String} {idx : Nat}
    (rest : List PathLeg) (ht : j.get_type = .object)
    (hk : key ≠ PATH_EXPR_ASTERISK)
    (hf : j.object_search_key key = some idx) :
    extractL j (.Key key :: rest)
      = append_if_ref_unique [] (extractL (j.childAt idx) rest) :=
  extractL_eq_of (extract_json_key_found ht hk hf
    (object_get_val_eq_childAt ht (object_search_key_lt hf))
    (extract_json_eq_ok _ rest))

theorem extractL_key_absent {j : JsonRef} {key : String}
    (rest : List PathLeg) (ht : j.get_type = .object)
    (hk : key ≠ PATH_EXPR_ASTERISK)
    (hf : j.object_search_key key = none) :
    extractL j (.Key key :: rest) = [] :=
  extractL_eq_of (extract_json_key_absent rest ht hk hf)

/-- A non-container node has no children to iterate. -/
theorem get_elem_count_scalar {j : JsonRef} (ht : j.get_type ≠ .array)
    (ht2 : j.get_type ≠ .object) : j.get_elem_count = 0 := by
  rcases j with ⟨node, loc⟩
  cases node <;>
    simp_all [JsonRef.get_type, Json.get_type, JsonRef.get_elem_count]

/-- The uniform recursive-descent equation: the current node's suffix
matches, then — for containers — every child matched against the full
original leg list, all merged left to right with identity dedup.  For a
non-container, `get_elem_count` is `0` and the fold is a no-op. -/
theorem extractL_da (j : JsonRef) (rest : List PathLeg) :
    extractL j (.DoubleAsterisk :: rest) = (List.range j.get_elem_count).foldl
      (fun acc k => append_if_ref_unique acc
        (extractL (j.childAt k) (.DoubleAsterisk :: rest)))
      (append_if_ref_unique [] (extractL j rest)) := by
  apply extractL_eq_of
  by_cases hty : j.get_type = .array
  · rw [extract_json_da_arr hty (extract_json_eq_ok j rest)]
    exact extract_json_arr_foldl _ _ hty (fun k hk => List.mem_range.mp hk)
  · by_cases hty2 : j.get_type = .object
    · rw [extract_json_da_obj hty2 (extract_json_eq_ok j rest)]
      exact extract_json_obj_foldl _ _ hty2 (fun k hk => List.mem_range.mp hk)
    · rw [extract_json_da_scalar hty hty2 (extract_json_eq_ok j rest)]
      rw [get_elem_count_scalar hty hty2]
      simp

/-! ## A fuel-indexed twin of `extract_json`

`extract_json` is defined by well-founded recursion and therefore does not
reduce definitionally; `extract_json_fuel` is the same algorithm driven by
a structural fuel counter, proved to agree with `extract_json` whenever the
fuel exceeds the recursion measure.  It exists so that concrete runs can be
checked by `rfl`. -/

/-- The children of a container node, in stored order. -/
def childRefs (j : JsonRef) : List JsonRef :=
  (List.range j.get_elem_count).map (fun k => j.childAt k)

/-- Iterate `f` over `children`, merging each result into `ret` with
identity dedup; abstract form of the source's per-child loops. -/
def extract_fuel_loop (f : JsonRef → Except String (List JsonRef)) :
    List JsonRef → List JsonRef → Except String (List JsonRef)
  | [], ret => .ok ret
  | c :: cs, ret =>
    match f c with
    | .error e => .error e
    | .ok sub => extract_fuel_loop f cs (append_if_ref_unique ret sub)

/-- Fuel-indexed twin of `extract_json`. -/
def extract_json_fuel : Nat → JsonRef → List PathLeg →
    Except String (List JsonRef)
  | 0, _, _ => .error "insufficient fuel"
  | n + 1, j, path_legs =>
    match path_legs with
    | [] => .ok [j]
    | current_leg :: sub_path_legs =>
      match current_leg with
      | .Index i =>
        match j.get_type with
        | .array =>
          if i = PATH_EXPR_ARRAY_INDEX_ASTERISK then
            extract_fuel_loop (fun c => extract_json_fuel n c sub_path_legs)
              (childRefs j) []
          else if usizeCast i < j.get_elem_count then
            match extract_json_fuel n (j.childAt (usizeCast i)) sub_path_legs with
            | .error e => .error e
            | .ok sub => .ok (append_if_ref_unique [] sub)
          else .ok []
        | _ =>
          if usizeCast i = 0 then
            match extract_json_fuel n j sub_path_legs with
            | .error e => .error e
            | .ok sub => .ok (append_if_ref_unique [] sub)
          else .ok []
      | .Key key =>
        if j.get_type = .object then
          if key = PATH_EXPR_ASTERISK then
            extract_fuel_loop (fun c => extract_json_fuel n c sub_path_legs)
              (childRefs j) []
          else
            match j.object_search_key key with
            | some idx =>
              match extract_json_fuel n (j.childAt idx) sub_path_legs with
              | .error e => .error e
              | .ok sub => .ok (append_if_ref_unique [] sub)
            | none => .ok []
        else .ok []
      | .DoubleAsterisk =>
        match extract_json_fuel n j sub_path_legs with
        | .error e => .error e
        | .ok sub =>
          match j.get_type with
          | .array =>
            extract_fuel_loop (fun c => extract_json_fuel n c path_legs)
              (childRefs j) (append_if_ref_unique [] sub)
          | .object =>
            extract_fuel_loop (fun c => extract_json_fuel n c path_legs)
              (childRefs j) (append_if_ref_unique [] sub)
          | _ => .ok (append_if_ref_unique [] sub)

/-- The abstract loop over the actual children agrees with the source's
indexed array loop when `f` agrees with `extract_json` on the children. -/
theorem extract_fuel_loop_arr {j : JsonRef} {legs : List PathLeg}
    {f : JsonRef → Except String (List JsonRef)}
    (ks : List Nat) (ret : List JsonRef)
    (ht : j.get_type = .array)
    (hks : ∀ k ∈ ks, k < j.get_elem_count)
    (hf : ∀ k ∈ ks, f (j.childAt k) = extract_json (j.childAt k) legs) :
    extract_fuel_loop f (ks.map (fun k => j.childAt k)) ret
      = extract_json_arr j ks legs ret := by
  induction ks generalizing ret with
  | nil => simp [extract_fuel_loop, extract_json_arr_nil]
  | cons k ks ih =>
    simp only [List.map_cons, extract_fuel_loop]
    rw [hf k (by simp), extract_json_eq_ok]
    rw [extract_json_arr_cons ks ret
      (array_get_elem_eq_childAt ht (hks k (by simp)))
      (extract_json_eq_ok (j.childAt k) legs)]
    exact ih _ (fun k hk => hks k (by simp [hk]))
      (fun k hk => hf k (by simp [hk]))

/-- The abstract loop over the actual children agrees with the source's
indexed object loop when `f` agrees with `extract_json` on the children. -/
theorem extract_fuel_loop_obj {j : JsonRef} {legs : List PathLeg}
    {f : JsonRef → Except String (List JsonRef)}
    (ks : List Nat) (ret : List JsonRef)
    (ht : j.get_type = .object)
    (hks : ∀ k ∈ ks, k < j.get_elem_count)
    (hf : ∀ k ∈ ks, f (j.childAt k) = extract_json (j.childAt k) legs) :
    extract_fuel_loop f (ks.map (fun k => j.childAt k)) ret
      = extract_json_obj j ks legs ret := by
  induction ks generalizing ret with
  | nil => simp [extract_fuel_loop, extract_json_obj_nil]
  | cons k ks ih =>
    simp only [List.map_cons, extract_fuel_loop]
    rw [hf k (by simp), extract_json_eq_ok]
    rw [extract_json_obj_cons ks ret
      (object_get_val_eq_childAt ht (hks k (by simp)))
      (extract_json_eq_ok (j.childAt k) legs)]
    exact ih _ (fun k hk => hks k (by simp [hk]))
      (fun k hk => hf k (by simp [hk]))

/-- With enough fuel, the fuel-indexed twin computes exactly
`extract_json`. -/
theorem extract_json_fuel_correct :
    ∀ (n : Nat) (j : JsonRef) (legs : List PathLeg),
      sizeOf j.node + legs.length < n →
      extract_json_fuel n j legs = extract_json j legs := by
  intro n
  induction n with
  | zero => intro j legs h; omega
  | succ n ihn =>
    intro j legs hsize
    cases legs with
    | nil => rw [extract_json_nil]; rfl
    | cons leg rest =>
      have hrest : sizeOf j.node + rest.length < n := by
        simp only [List.length_cons] at hsize; omega
      have hchild : ∀ k, k < j.get_elem_count →
          (j.get_type = .array ∨ j.get_type = .object) →
          ∀ legs2 : List PathLeg, legs2.length ≤ rest.length + 1 →
          extract_json_fuel n (j.childAt k) legs2
            = extract_json (j.childAt k) legs2 := by
        intro k hk hty legs2 hlen
        have := sizeOf_childAt_lt hty hk
        exact ihn (j.childAt k) legs2 (by
          simp only [List.length_cons] at hsize; omega)
      cases leg with
      | Index i =>
        by_cases hty : j.get_type = .array
        · simp only [extract_json_fuel, hty]
          by_cases hi : i = PATH_EXPR_ARRAY_INDEX_ASTERISK
          · rw [if_pos hi, extract_json_index_arr_ast rest hty hi, childRefs]
            exact extract_fuel_loop_arr _ _ hty
              (fun k hk => List.mem_range.mp hk)
              (fun k hk => hchild k (List.mem_range.mp hk) (Or.inl hty) rest
                (by omega))
          · rw [if_neg hi]
            by_cases hlt : usizeCast i < j.get_elem_count
            · rw [if_pos hlt]
              rw [hchild _ hlt (Or.inl hty) rest (by omega)]
              rw [extract_json_eq_ok]
              rw [extract_json_index_arr_hit hty hi hlt
                (array_get_elem_eq_childAt hty hlt)
                (extract_json_eq_ok (j.childAt (usizeCast i)) rest)]
            · rw [if_neg hlt, extract_json_index_arr_miss rest hty hi hlt]
        · cases hty2 : j.get_type <;> try exact absurd hty2 hty
          all_goals simp only [extract_json_fuel, hty2]
          all_goals by_cases hz : usizeCast i = 0
          all_goals first
            | (rw [if_pos hz, ihn j rest hrest, extract_json_eq_ok,
                extract_json_index_nonarr_zero hty hz
                  (extract_json_eq_ok j rest)])
            | (rw [if_neg hz,
                extract_json_index_nonarr_nonzero rest hty hz])
      | Key key =>
        by_cases hty : j.get_type = .object
        · simp only [extract_json_fuel, if_pos hty, hty, eq_self_iff_true,
            if_true]
          by_cases hk : key = PATH_EXPR_ASTERISK
          · rw [if_pos hk, extract_json_key_ast rest hty hk, childRefs]
            exact extract_fuel_loop_obj _ _ hty
              (fun k hk2 => List.mem_range.mp hk2)
              (fun k hk2 => hchild k (List.mem_range.mp hk2) (Or.inr hty) rest
                (by omega))
          · rw [if_neg hk]
            cases hf : j.object_search_key key with
            | some idx =>
              dsimp only
              rw [hchild _ (object_search_key_lt hf) (Or.inr hty) rest
                (by omega)]
              rw [extract_json_eq_ok]
              rw [extract_json_key_found hty hk hf
                (object_get_val_eq_childAt hty (object_search_key_lt hf))
                (extract_json_eq_ok (j.childAt idx) rest)]
            | none =>
              dsimp only
              rw [extract_json_key_absent rest hty hk hf]
        · simp only [extract_json_fuel, if_neg hty,
            extract_json_key_nonobj rest hty]
      | DoubleAsterisk =>
        simp only [extract_json_fuel]
        rw [ihn j rest hrest, extract_json_eq_ok]
        by_cases hty : j.get_type = .array
        · simp only [hty]
          rw [extract_json_da_arr hty (extract_json_eq_ok j rest), childRefs]
          exact extract_fuel_loop_arr _ _ hty
            (fun k hk => List.mem_range.mp hk)
            (fun k hk => hchild k (List.mem_range.mp hk) (Or.inl hty) _
              (by simp))
        · by_cases hty2 : j.get_type = .object
          · simp only [hty2]
            rw [extract_json_da_obj hty2 (extract_json_eq_ok j rest),
              childRefs]
            exact extract_fuel_loop_obj _ _ hty2
              (fun k hk => List.mem_range.mp hk)
              (fun k hk => hchild k (List.mem_range.mp hk) (Or.inr hty2) _
                (by simp))
          · rw [extract_json_da_scalar hty hty2 (extract_json_eq_ok j rest)]
            cases hty3 : j.get_type <;>
              first
              | exact absurd hty3 hty
              | exact absurd hty3 hty2
              | simp only [hty3]

/-! ## Location-identity uniqueness of match sets -/

/-- No two references in the list denote the same storage location. -/
def RefUnique (l : List JsonRef) : Prop :=
  l.Pairwise (fun a b => a.ref_eq b = false)

/-- Merging with `[]` on the left is the identity: the verifier set is
empty, so every element of `other` is appended unchanged. -/
theorem append_if_ref_unique_nil (other : List JsonRef) :
    append_if_ref_unique [] other = other := by
  simp [append_if_ref_unique]

/-- `append_if_ref_unique` preserves location uniqueness when both inputs
are location-unique. -/
theorem append_if_ref_unique_refUnique {l1 l2 : List JsonRef}
    (h1 : RefUnique l1) (h2 : RefUnique l2) :
    RefUnique (append_if_ref_unique l1 l2) := by
  unfold RefUnique append_if_ref_unique
  rw [List.pairwise_append]
  refine ⟨h1, List.Pairwise.filter _ h2, ?_⟩
  intro a ha b hb
  rw [List.mem_filter] at hb
  have hany := hb.2
  simp only [Bool.not_eq_true', List.any_eq_false] at hany
  simpa using hany a ha

/-- The per-child merge fold preserves location uniqueness when the
accumulator and every merged child list are location-unique. -/
theorem foldl_append_if_ref_unique_refUnique {f : Nat → List JsonRef}
    (ks : List Nat) (ret : List JsonRef)
    (hret : RefUnique ret) (hf : ∀ k ∈ ks, RefUnique (f k)) :
    RefUnique (ks.foldl (fun acc k => append_if_ref_unique acc (f k)) ret) := by
  induction ks generalizing ret with
  | nil => exact hret
  | cons k ks ih =>
    simp only [List.foldl_cons]
    exact ih _ (append_if_ref_unique_refUnique hret (hf k (by simp)))
      (fun k hk => hf k (by simp [hk]))

theorem extractL_refUnique_of_size (n : Nat) :
    ∀ j : JsonRef, sizeOf j.node < n →
      ∀ legs : List PathLeg, RefUnique (extractL j legs) := by
  induction n with
  | zero => intro j h; omega
  | succ n ihn =>
    intro j hj legs
    induction legs with
    | nil => rw [extractL_nil]; exact List.pairwise_singleton _ _
    | cons leg rest ihrest =>
      have hchild : ∀ k, k < j.get_elem_count →
          (j.get_type = .array ∨ j.get_type = .object) →
          ∀ legs2, RefUnique (extractL (j.childAt k) legs2) := by
        intro k hk hty legs2
        exact ihn (j.childAt k) (by
          have := sizeOf_childAt_lt hty hk; omega) legs2
      cases leg with
      | Index i =>
        by_cases hty : j.get_type = .array
        · by_cases hi : i = PATH_EXPR_ARRAY_INDEX_ASTERISK
          · rw [extractL_index_arr_ast rest hty hi]
            exact foldl_append_if_ref_unique_refUnique _ _ List.Pairwise.nil
              (fun k hk => hchild k (List.mem_range.mp hk) (Or.inl hty) rest)
          · by_cases hlt : usizeCast i < j.get_elem_count
            · rw [extractL_index_arr_hit rest hty hi hlt,
                append_if_ref_unique_nil]
              exact hchild _ hlt (Or.inl hty) rest
            · rw [extractL_index_arr_miss rest hty hi hlt]
              exact List.Pairwise.nil
        · by_cases hz : usizeCast i = 0
          · rw [extractL_index_nonarr_zero rest hty hz,
              append_if_ref_unique_nil]
            exact ihrest
          · rw [extractL_index_nonarr_nonzero rest hty hz]
            exact List.Pairwise.nil
      | Key key =>
        by_cases hty : j.get_type = .object
        · by_cases hk : key = PATH_EXPR_ASTERISK
          · rw [extractL_key_ast rest hty hk]
            exact foldl_append_if_ref_unique_refUnique _ _ List.Pairwise.nil
              (fun k hk2 => hchild k (List.mem_range.mp hk2) (Or.inr hty) rest)
          · cases hf : j.object_search_key key with
            | some idx =>
              rw [extractL_key_found rest hty hk hf, append_if_ref_unique_nil]
              exact hchild _ (object_search_key_lt hf) (Or.inr hty) rest
            | none =>
              rw [extractL_key_absent rest hty hk hf]
              exact List.Pairwise.nil
        · rw [extractL_key_nonobj rest hty]
          exact List.Pairwise.nil
      | DoubleAsterisk =>
        rw [extractL_da j rest]
        refine foldl_append_if_ref_unique_refUnique _ _ ?_ ?_
        · rw [append_if_ref_unique_nil]; exact ihrest
        · intro k hk
          by_cases hty : j.get_type = .array
          · exact hchild k (List.mem_range.mp hk) (Or.inl hty) _
          · by_cases hty2 : j.get_type = .object
            · exact hchild k (List.mem_range.mp hk) (Or.inr hty2) _
            · rw [get_elem_count_scalar hty hty2] at hk
              simp at hk

/-- Every match set produced by the matcher is location-unique. -/
theorem extractL_refUnique (j : JsonRef) (legs : List PathLeg) :
    RefUnique (extractL j legs) :=
  extractL_refUnique_of_size (sizeOf j.node + 1) j (by omega) legs

/-! ## Orchestrator characterization -/

/-- The combined match list of `extract`: each expression's own match list
(already identity-deduplicated within the expression), concatenated in the
order the expressions are supplied, with no cross-expression dedup. -/
def matched_list (j : JsonRef) (exprs : List PathExpression) : List JsonRef :=
  (exprs.map (fun pe => extractL j pe.legs)).flatten

/-- The auto-wrap decision of `extract`: more than one expression, or some
expression with a wildcard flag. -/
def could_wrap (exprs : List PathExpression) : Bool :=
  decide (exprs.length > 1) || exprs.any (fun pe => pe.contains_any_asterisk)

theorem extract_fold_eq (j : JsonRef) :
    ∀ (exprs : List PathExpression) (could : Bool) (el : List JsonRef),
      extract_fold j exprs could el
        = .ok (could || exprs.any (fun pe => pe.contains_any_asterisk),
               el ++ matched_list j exprs) := by
  intro exprs
  induction exprs with
  | nil => intro could el; simp [extract_fold, matched_list]
  | cons pe rest ih =>
    intro could el
    simp only [extract_fold, extract_json_eq_ok]
    rw [ih]
    simp [matched_list, Bool.or_assoc]

/-- `extract`, characterized by the combined match list and the wrap bit:
empty list → no match; otherwise wrap all matches as a fresh array when
`could_wrap`, else return the single head match unwrapped. -/
theorem extract_eq (j : JsonRef) (exprs : List PathExpression) :
    extract j exprs = .ok (match matched_list j exprs with
      | [] => none
      | e :: rest =>
        if could_wrap exprs then
          some (.arr ((e :: rest).map (fun r => r.to_owned)))
        else some e.to_owned) := by
  unfold extract
  rw [extract_fold_eq]
  simp only [List.nil_append, could_wrap]
  cases matched_list j exprs with
  | nil => rfl
  | cons e rest =>
    dsimp only
    by_cases hc :
        (decide (exprs.length > 1)
          || exprs.any fun pe => pe.contains_any_asterisk) = true
    · rw [if_pos hc, if_pos hc]
    · rw [if_neg hc, if_neg hc]

/-! ## Wildcard-free expressions produce at most one match -/

/-- Whether a leg is a wildcard: the `[*]` index sentinel, the `*` key
sentinel, or recursive descent. -/
def legHasWildcard : PathLeg → Bool
  | .Index i => decide (i = PATH_EXPR_ARRAY_INDEX_ASTERISK)
  | .Key k => decide (k = PATH_EXPR_ASTERISK)
  | .DoubleAsterisk => true

/-- A wildcard-free leg list matches at most one node. -/
theorem extractL_length_le_one {legs : List PathLeg}
    (hw : legs.all (fun l => !legHasWildcard l) = true) :
    ∀ j : JsonRef, (extractL j legs).length ≤ 1 := by
  induction legs with
  | nil => intro j; rw [extractL_nil]; simp
  | cons leg rest ih =>
    have hw1 : legHasWildcard leg = false := by
      have := (List.all_eq_true.mp hw) leg (by simp)
      simpa using this
    have hw2 : rest.all (fun l => !legHasWildcard l) = true := by
      rw [List.all_eq_true] at hw ⊢
      intro l hl
      exact hw l (by simp [hl])
    intro j
    cases leg with
    | Index i =>
      have hi : i ≠ PATH_EXPR_ARRAY_INDEX_ASTERISK := by
        simpa [legHasWildcard] using hw1
      by_cases hty : j.get_type = .array
      · by_cases hlt : usizeCast i < j.get_elem_count
        · rw [extractL_index_arr_hit rest hty hi hlt,
            append_if_ref_unique_nil]
          exact ih hw2 _
        · rw [extractL_index_arr_miss rest hty hi hlt]; simp
      · by_cases hz : usizeCast i = 0
        · rw [extractL_index_nonarr_zero rest hty hz,
            append_if_ref_unique_nil]
          exact ih hw2 _
        · rw [extractL_index_nonarr_nonzero rest hty hz]; simp
    | Key key =>
      have hk : key ≠ PATH_EXPR_ASTERISK := by
        simpa [legHasWildcard] using hw1
      by_cases hty : j.get_type = .object
      · cases hf : j.object_search_key key with
        | some idx =>
          rw [extractL_key_found rest hty hk hf, append_if_ref_unique_nil]
          exact ih hw2 _
        | none => rw [extractL_key_absent rest hty hk hf]; simp
      · rw [extractL_key_nonobj rest hty]; simp
    | DoubleAsterisk => simp [legHasWildcard] at hw1

/-! ## Example documents used in concrete scenarios -/

/-- The document `[[0,1],[2,3],[4,[5,6]]]` rooted at location `[]`. -/
def docNested : JsonRef :=
  ⟨.arr [.arr [.num 0, .num 1], .arr [.num 2, .num 3],
         .arr [.num 4, .arr [.num 5, .num 6]]], []⟩

/-- The matches of `[DoubleAsterisk, Index 0]` on `docNested`:
`[[0,1], 0, 1, 2, 3, 4, 5, 6]`, each at its storage location. -/
def docNestedMatches : List JsonRef :=
  [⟨.arr [.num 0, .num 1], [0]⟩, ⟨.num 0, [0, 0]⟩, ⟨.num 1, [0, 1]⟩,
   ⟨.num 2, [1, 0]⟩, ⟨.num 3, [1, 1]⟩, ⟨.num 4, [2, 0]⟩,
   ⟨.num 5, [2, 1, 0]⟩, ⟨.num 6, [2, 1, 1]⟩]

set_option maxRecDepth 10000 in
theorem docNested_extract_json :
    extract_json docNested [.DoubleAsterisk, .Index 0]
      = .ok docNestedMatches := by
  rw [← extract_json_fuel_correct 100 _ _ (by decide)]
  rfl

/-- `[1, 1]`: two structurally equal scalars at distinct locations. -/
def docPair : JsonRef := ⟨.arr [.num 1, .num 1], []⟩

set_option maxRecDepth 2000 in
theorem docPair_extract_json :
    extract_json docPair [.Index PATH_EXPR_ARRAY_INDEX_ASTERISK]
      = .ok [⟨.num 1, [0]⟩, ⟨.num 1, [1]⟩] := by
  rw [← extract_json_fuel_correct 100 _ _ (by decide)]
  rfl

/-! ## The claims -/

/-- C1: for every node `j` and leg list `DoubleAsterisk :: rest`, the match
list is the identity-deduplicated, in-order union of (1) the matches of
`rest` on `j` itself (the zero-depth descendant) and (2), child by child in
stored order (arrays and objects; any other node type has `get_elem_count`
zero and contributes nothing), the matches of the full original leg list —
still beginning with `DoubleAsterisk` — on that child.  In particular
`[DoubleAsterisk, Index 0]` on `[[0,1],[2,3],[4,[5,6]]]` yields the matches
`[[0,1], 0, 1, 2, 3, 4, 5, 6]` in that order. -/
theorem claim_C1 :
    (∀ (j : JsonRef) (rest : List PathLeg),
      extractL j (.DoubleAsterisk :: rest)
        = (List.range j.get_elem_count).foldl
            (fun acc k => append_if_ref_unique acc
              (extractL (j.childAt k) (.DoubleAsterisk :: rest)))
            (extractL j rest))
    ∧ extractL docNested [.DoubleAsterisk, .Index 0] = docNestedMatches := by
  constructor
  · intro j rest
    rw [extractL_da j rest, append_if_ref_unique_nil]
  · exact extractL_eq_of docNested_extract_json

/-- C3: within any match set no two references denote the same storage
location — `ref_eq`, the address identity of the backing bytes, is what is
compared, never decoded contents — and structurally equal values stored at
distinct locations are all kept (both `1`s of `[1,1]` are matched by
`[Index *]`, at locations `[0]` and `[1]`). -/
theorem claim_C3 :
    (∀ (j : JsonRef) (legs : List PathLeg),
      (extractL j legs).Pairwise (fun a b => a.ref_eq b = false))
    ∧ extractL docPair [.Index PATH_EXPR_ARRAY_INDEX_ASTERISK]
        = [⟨.num 1, [0]⟩, ⟨.num 1, [1]⟩] :=
  ⟨fun j legs => extractL_refUnique j legs,
   extractL_eq_of docPair_extract_json⟩

/-- C7: on the (well-formed) tree model, where the Value Model accessors
never fail, neither `extract_json` nor `extract` ever returns an error:
unmatched paths, out-of-range indices and absent keys are ordinary
no-match results.  (The only error paths in the definitions are the
verbatim propagation of an accessor error.) -/
theorem claim_C7 :
    (∀ (j : JsonRef) (legs : List PathLeg),
      ∃ v, extract_json j legs = Except.ok v)
    ∧ (∀ (j : JsonRef) (exprs : List PathExpression),
      ∃ r, extract j exprs = Except.ok r) :=
  ⟨fun j legs => extract_json_ok j legs,
   fun j exprs => ⟨_, extract_eq j exprs⟩⟩

/-- C8: a leg-less path matches exactly the node itself, so a single
expression with zero legs and cleared wildcard flags extracts the whole
document as an owned copy, unwrapped. -/
theorem claim_C8 (j : JsonRef) :
    extract_json j [] = .ok [j]
    ∧ extract j [⟨[], ⟨false, false⟩⟩] = .ok (some j.node) := by
  refine ⟨extract_json_nil j, ?_⟩
  rw [extract_eq]
  have hm : matched_list j [⟨[], ⟨false, false⟩⟩] = [j] := by
    simp [matched_list, extractL_nil]
  rw [hm]
  rfl

/-- C9: with an empty path-expression list, `extract` returns `none` (no
match) for every document, and never an error. -/
theorem claim_C9 (j : JsonRef) : extract j [] = .ok none := rfl

/-! ## Arithmetic facts about the `usize` cast on the `i32` range -/

theorem two_pow_64_eq : (2 : Int) ^ 64 = 18446744073709551616 := by norm_num

theorem usizeCast_toNat {i : Int} (h0 : 0 ≤ i) (h : i < 2 ^ 64) :
    usizeCast i = i.toNat := by
  unfold usizeCast
  rw [two_pow_64_eq] at h ⊢
  omega

theorem usizeCast_big_of_neg {i : Int} (hlo : -(2 ^ 31) ≤ i) (hneg : i < 0) :
    2 ^ 32 ≤ usizeCast i := by
  unfold usizeCast
  rw [two_pow_64_eq]
  have h31 : -(2 ^ 31 : Int) = -2147483648 := by norm_num
  rw [h31] at hlo
  have : (2 ^ 32 : Nat) = 4294967296 := by norm_num
  omega

/-- C4: semantics of an `Index i` leg.  On an array of `n` elements the
`[*]` sentinel matches `rest` against every element in ascending order with
deduplicated union, an in-range `0 ≤ i < n` matches `rest` against element
`i` only, and an out-of-range index yields no matches.  On a non-array the
node is its own element `0`: `i = 0` matches `rest` against the node
itself, anything else — including the sentinel — yields no matches.
(`i` ranges over the source's `i32`; the element count is the format's
`u32`.) -/
theorem claim_C4 (j : JsonRef) (i : Int) (rest : List PathLeg)
    (hlo : -(2 ^ 31) ≤ i) (hhi : i < 2 ^ 31)
    (hcnt : j.get_elem_count < 2 ^ 32) :
    (j.get_type = .array →
      (i = PATH_EXPR_ARRAY_INDEX_ASTERISK →
        extractL j (.Index i :: rest)
          = (List.range j.get_elem_count).foldl
              (fun acc k => append_if_ref_unique acc
                (extractL (j.childAt k) rest)) [])
      ∧ (0 ≤ i → i.toNat < j.get_elem_count →
          extractL j (.Index i :: rest) = extractL (j.childAt i.toNat) rest)
      ∧ (i ≠ PATH_EXPR_ARRAY_INDEX_ASTERISK →
          ¬ (0 ≤ i ∧ i.toNat < j.get_elem_count) →
          extractL j (.Index i :: rest) = []))
    ∧ (j.get_type ≠ .array →
        (i = 0 → extractL j (.Index i :: rest) = extractL j rest)
        ∧ (i ≠ 0 → extractL j (.Index i :: rest) = [])) := by
  have hcast : 0 ≤ i → usizeCast i = i.toNat := fun h0 =>
    usizeCast_toNat h0 (by
      have : (2 : Int) ^ 31 < 2 ^ 64 := by norm_num
      omega)
  constructor
  · intro hty
    refine ⟨fun hi => extractL_index_arr_ast rest hty hi, ?_, ?_⟩
    · intro h0 hin
      have hi : i ≠ PATH_EXPR_ARRAY_INDEX_ASTERISK := by
        unfold PATH_EXPR_ARRAY_INDEX_ASTERISK
        omega
      rw [extractL_index_arr_hit rest hty hi
        (by rw [hcast h0]; exact hin), append_if_ref_unique_nil, hcast h0]
    · intro hi hout
      refine extractL_index_arr_miss rest hty hi ?_
      by_cases h0 : 0 ≤ i
      · rw [hcast h0]
        omega
      · have := usizeCast_big_of_neg hlo (by omega)
        omega
  · intro hty
    constructor
    · intro hz
      subst hz
      rw [extractL_index_nonarr_zero rest hty (by decide),
        append_if_ref_unique_nil]
    · intro hz
      refine extractL_index_nonarr_nonzero rest hty ?_
      by_cases h0 : 0 ≤ i
      · rw [hcast h0]
        omega
      · have := usizeCast_big_of_neg hlo (by omega)
        omega

/-- C4 witness: `[true, 2017]` with `Index 0` matches exactly the first
element; the hypotheses of `claim_C4` hold at this input. -/
theorem claim_C4_witness :
    extractL ⟨.arr [.bool true, .num 2017], []⟩ [.Index 0]
      = extractL ⟨.bool true, [0]⟩ [] := by
  have h := (claim_C4 ⟨.arr [.bool true, .num 2017], []⟩ 0 []
    (by decide) (by decide) (by decide)).1 rfl
  exact h.2.1 (by decide) (by decide)

/-- C5: semantics of a `Key k` leg.  Only objects participate: any other
node type yields no matches.  The `*` sentinel matches `rest` against every
value in stored (sorted-key) order with deduplicated union; otherwise `k`
is looked up by exact key match — if found, `rest` is matched against that
single value, and an absent key yields no matches. -/
theorem claim_C5 (j : JsonRef) (key : String) (rest : List PathLeg) :
    (j.get_type ≠ .object → extractL j (.Key key :: rest) = [])
    ∧ (j.get_type = .object →
      (key = PATH_EXPR_ASTERISK →
        extractL j (.Key key :: rest)
          = (List.range j.get_elem_count).foldl
              (fun acc k => append_if_ref_unique acc
                (extractL (j.childAt k) rest)) [])
      ∧ (key ≠ PATH_EXPR_ASTERISK →
        (∀ idx, j.object_search_key key = some idx →
          extractL j (.Key key :: rest) = extractL (j.childAt idx) rest)
        ∧ (j.object_search_key key = none →
          extractL j (.Key key :: rest) = []))) := by
  refine ⟨fun hty => extractL_key_nonobj rest hty, fun hty => ⟨?_, ?_⟩⟩
  · intro hk
    exact extractL_key_ast rest hty hk
  · intro hk
    constructor
    · intro idx hf
      rw [extractL_key_found rest hty hk hf, append_if_ref_unique_nil]
    · intro hf
      exact extractL_key_absent rest hty hk hf

/-- C5 witness: on `{"a": "a1", "b": 20.08, "c": false}` (with `20.08`
standing for a number node) the key `"c"` is found at slot `2` and matches
its value; the hypotheses of `claim_C5` hold at this input. -/
theorem claim_C5_witness :
    extractL ⟨.obj [("a", .str "a1"), ("b", .num 2008), ("c", .bool false)],
      []⟩ [.Key "c"]
      = extractL ⟨.bool false, [2]⟩ [] := by
  have h := ((claim_C5 ⟨.obj [("a", .str "a1"), ("b", .num 2008),
    ("c", .bool false)], []⟩ "c" []).2 rfl).2 (by decide)
  exact h.1 2 rfl

/-- The path expression `$**[0]` with its recursive-descent flag set. -/
def peDA : PathExpression := ⟨[.DoubleAsterisk, .Index 0], ⟨false, true⟩⟩

/-- C6: with several path expressions, the combined list is each
expression's own (identity-deduplicated) match list concatenated in the
order the expressions are supplied, with no dedup across expressions; the
result wraps that combined list.  Concretely, supplying `$**[0]` twice on
`[[0,1],[2,3],[4,[5,6]]]` repeats every match once per expression. -/
theorem claim_C6 :
    (∀ (j : JsonRef) (exprs : List PathExpression),
      extract j exprs
        = .ok (match (exprs.map (fun pe => extractL j pe.legs)).flatten with
          | [] => none
          | e :: rest =>
            if could_wrap exprs then
              some (.arr ((e :: rest).map (fun r => r.to_owned)))
            else some e.to_owned))
    ∧ matched_list docNested [peDA, peDA]
        = docNestedMatches ++ docNestedMatches
    ∧ extract docNested [peDA, peDA]
        = .ok (some (.arr ((docNestedMatches ++ docNestedMatches).map
            (fun r => r.to_owned)))) := by
  have he : extractL docNested [.DoubleAsterisk, .Index 0]
      = docNestedMatches := extractL_eq_of docNested_extract_json
  have hm : matched_list docNested [peDA, peDA]
      = docNestedMatches ++ docNestedMatches := by
    simp [matched_list, peDA, he]
  refine ⟨fun j exprs => extract_eq j exprs, hm, ?_⟩
  rw [extract_eq, hm]
  rfl

/-- A path expression's precomputed flags are consistent with its legs:
the "contains any wildcard" bit is set exactly when some leg is a
single-level or recursive-descent wildcard. -/
def flags_consistent (pe : PathExpression) : Prop :=
  pe.contains_any_asterisk = pe.legs.any legHasWildcard

instance (pe : PathExpression) : Decidable (flags_consistent pe) := by
  unfold flags_consistent
  infer_instance

/-- C2: for a non-empty expression list with a non-empty combined match
list, if more than one expression was supplied or some expression's
precomputed wildcard flag is set, `extract` returns a freshly built array
of all matches (as owned copies, in collection order) even when there is
exactly one match; otherwise — one expression, flag unset, flags
precomputed from the legs — the combined list has exactly one match, which
is returned unwrapped as an owned copy. -/
theorem claim_C2 (j : JsonRef) (exprs : List PathExpression)
    (hne : exprs ≠ [])
    (hwf : ∀ pe ∈ exprs, flags_consistent pe)
    (hm : matched_list j exprs ≠ []) :
    (could_wrap exprs = true →
      extract j exprs = .ok (some (.arr ((matched_list j exprs).map
        (fun r => r.to_owned)))))
    ∧ (could_wrap exprs = false →
      ∃ m, matched_list j exprs = [m]
        ∧ extract j exprs = .ok (some m.to_owned)) := by
  constructor
  · intro hc
    rw [extract_eq]
    cases hml : matched_list j exprs with
    | nil => exact absurd hml hm
    | cons e rest =>
      dsimp only
      rw [if_pos hc]
  · intro hc
    have hone : (matched_list j exprs).length = 1 := by
      simp only [could_wrap, Bool.or_eq_false_iff, decide_eq_false_iff_not,
        not_lt, List.any_eq_false] at hc
      obtain ⟨hlen, hflag⟩ := hc
      cases exprs with
      | nil => exact absurd rfl hne
      | cons pe rest =>
        cases rest with
        | cons pe2 rest2 => simp at hlen
        | nil =>
          have hf : pe.contains_any_asterisk = false := by
            have := hflag pe (by simp)
            simpa using this
          have hcons := hwf pe (by simp)
          unfold flags_consistent at hcons
          rw [hf] at hcons
          have hle : (extractL j pe.legs).length ≤ 1 :=
            extractL_length_le_one (by
              rw [List.all_eq_true]
              intro l hl
              have := (List.any_eq_false.mp hcons.symm) l hl
              simpa using this) j
          have hmm : matched_list j [pe] = extractL j pe.legs := by
            simp [matched_list]
          rw [hmm] at hm ⊢
          cases hl : extractL j pe.legs with
          | nil => exact absurd hl hm
          | cons e rest =>
            rw [hl] at hle
            simp at hle
            simp [hl, hle]
    cases hml : matched_list j exprs with
    | nil => exact absurd hml hm
    | cons e rest =>
      rw [hml] at hone
      simp at hone
      subst hone
      refine ⟨e, rfl, ?_⟩
      rw [extract_eq, hml]
      dsimp only
      rw [if_neg (by rw [hc]; exact Bool.false_ne_true)]

/-- C2 witness: a single wildcard-free expression `$.a` on `{"a": 1}`
matches exactly once and is returned unwrapped; all hypotheses of
`claim_C2` hold at this input. -/
theorem claim_C2_witness :
    extract ⟨.obj [("a", .num 1)], []⟩ [⟨[.Key "a"], ⟨false, false⟩⟩]
      = .ok (some (.num 1)) := by
  have hml : matched_list ⟨.obj [("a", .num 1)], []⟩
      [⟨[.Key "a"], ⟨false, false⟩⟩] = [⟨.num 1, [0]⟩] := by
    have h : extract_json (⟨.obj [("a", .num 1)], []⟩ : JsonRef) [.Key "a"]
        = .ok [⟨.num 1, [0]⟩] := by
      rw [← extract_json_fuel_correct 10000 _ _ (by decide)]
      rfl
    simp [matched_list, extractL_eq_of h]
  have h2 := (claim_C2 ⟨.obj [("a", .num 1)], []⟩
    [⟨[.Key "a"], ⟨false, false⟩⟩] (by decide) (by decide)
    (by rw [hml]; simp)).2 rfl
  obtain ⟨m, hm1, hm2⟩ := h2
  rw [hml] at hm1
  cases hm1
  exact hm2

/-- C10: the precomputed flag fields never influence which nodes match or
their order — two expression lists with identical leg sequences produce
identical combined match lists — and, beyond the legs, `extract`'s output
depends on the flags only through the wildcard bit that (together with the
number of expressions) decides the auto-wrap. -/
theorem claim_C10 (j : JsonRef) (e1 e2 : List PathExpression)
    (hlegs : e1.map (fun pe => pe.legs) = e2.map (fun pe => pe.legs)) :
    matched_list j e1 = matched_list j e2
    ∧ ((e1.any fun pe => pe.contains_any_asterisk)
          = (e2.any fun pe => pe.contains_any_asterisk) →
        extract j e1 = extract j e2) := by
  have key : ∀ e : List PathExpression, matched_list j e
      = ((e.map (fun pe => pe.legs)).map (extractL j)).flatten := by
    intro e
    simp [matched_list, List.map_map]
    rfl
  have hm : matched_list j e1 = matched_list j e2 := by
    rw [key, key, hlegs]
  refine ⟨hm, fun hflag => ?_⟩
  have hlen : e1.length = e2.length := by
    have := congrArg List.length hlegs
    simpa using this
  rw [extract_eq, extract_eq, hm]
  have hcw : could_wrap e1 = could_wrap e2 := by
    unfold could_wrap
    rw [hlen, hflag]
  rw [hcw]

/-- C10 witness: the same legs under different flag fields (asterisk bit
versus double-asterisk bit — the wildcard bit is set either way) give the
same extraction result. -/
theorem claim_C10_witness :
    extract docPair [⟨[.Key "a"], ⟨true, false⟩⟩]
      = extract docPair [⟨[.Key "a"], ⟨false, true⟩⟩] :=
  (claim_C10 docPair [⟨[.Key "a"], ⟨true, false⟩⟩]
    [⟨[.Key "a"], ⟨false, true⟩⟩] rfl).2 rfl
